import Mathlib

/-!
Shallow embedding of the FlavorGraph recipe-suggestion engine
(`src/Flavor Graph/flavorgraph/engine.py`).

Modelling conventions:
* Python sets of strings are duplicate-free `List String` values built with `addSet`;
  only membership, cardinality and sorted output are ever consumed.
* Python dicts are association lists with Python assignment semantics (`alInsert`).
* The exact real values of the score formulas (`covered - missing - 0.2*subs`,
  `covered - 1.5*missing - 0.2*subs`) are multiples of 0.1 and are stored as `Int`
  values scaled by 10 (weights 10, 2 and 15). Python evaluates the formulas in
  IEEE doubles: a double comparison agrees with the exact comparison whenever the
  exact values differ (distinct exact scores are at least 0.1 apart, far above
  rounding error), but doubles may order two exactly-equal scores strictly, so
  which of several exactly-tied candidates wins a strict comparison is left
  unspecified here; no theorem below pins that tie choice.
* Python `list.sort` is stable; it is modelled by `List.insertionSort`, which is
  stable for total preorders.
-/

namespace FlavorGraph

/-- Lower-casing of one character, the ASCII core of Python `str.lower`. -/
def lowerChar (c : Char) : Char := c.toLower

/-- Lower-casing of a string, Python `s.lower()`. -/
def lowerStr (s : String) : String := String.mk (s.data.map lowerChar)

/-- Whitespace trimming, Python `s.strip()`. -/
def trimStr (s : String) : String :=
  String.mk (((s.data.dropWhile Char.isWhitespace).reverse.dropWhile Char.isWhitespace).reverse)

/-- Normalization of ingredient names, Python `s.strip().lower()`. -/
def normalize (s : String) : String := lowerStr (trimStr s)

/-- Code-point lexicographic comparison of character lists, the order Python uses on
strings. -/
def listLe : List Char → List Char → Bool
  | [], _ => true
  | _ :: _, [] => false
  | a :: as, b :: bs =>
    if a.toNat < b.toNat then true
    else if b.toNat < a.toNat then false
    else listLe as bs

/-- String comparison `a <= b` as Python orders strings. -/
def strLe (a b : String) : Prop := listLe a.data b.data = true

instance : DecidableRel strLe := fun _ _ => instDecidableEqBool _ _

/-- A recipe record as stored in the catalog. -/
structure Recipe where
  id : String
  title : String
  ingredients : List String
  instructions : List String
  tags : List String
deriving DecidableEq

/-- Engine state after loading: recipes in dictionary iteration order plus the
substitution table (ingredient key to ordered alternatives). -/
structure Engine where
  recipes : List Recipe
  substitutions : List (String × List String)
deriving DecidableEq

/-- Substitution-table lookup with default, Python `self.substitutions.get(key, [])`. -/
def subsGet (subs : List (String × List String)) (k : String) : List String :=
  match subs.find? (fun p => p.1 == k) with
  | some p => p.2
  | none => []

/-- Insertion into a Python set modelled as a duplicate-free list. -/
def addSet (s : List String) (x : String) : List String :=
  if x ∈ s then s else s ++ [x]

/-- Python `set.update`, folding `addSet` over the added elements. -/
def setUnion (s : List String) (l : List String) : List String := l.foldl addSet s

/-- Python dict assignment `d[k] = v` on an association list. -/
def alInsert {β : Type} : List (String × β) → String → β → List (String × β)
  | [], k, v => [(k, v)]
  | (k', v') :: rest, k, v =>
    if k' = k then (k, v) :: rest else (k', v') :: alInsert rest k v

/-- Python dict lookup on an association list. -/
def alLookup {β : Type} : List (String × β) → String → Option β
  | [], _ => none
  | (k', v') :: rest, k => if k' = k then some v' else alLookup rest k

/-- Python `d.update(e)`, merging one dict into another. -/
def alUpdate {β : Type} (d e : List (String × β)) : List (String × β) :=
  e.foldl (fun d p => alInsert d p.1 p.2) d

/-- Result of the coverage resolver `_compute_missing_and_subs`. -/
structure Coverage where
  missing : List String
  covered : List String
  subs_used : List (String × String)
deriving DecidableEq

/-- First alternative of `key` in substitution-table order that is available:
the inner `for alt ...: if alt in available: ... break` loop. -/
def firstAlt (subs : List (String × List String)) (available : List String)
    (key : String) : Option String :=
  (subsGet subs key).find? (fun a => decide (a ∈ available))

/-- Decision derivative of the ingredient loop: the substitution (if any) through
which a normalized key would be covered. -/
def viaSub (subs : List (String × List String)) (available : List String)
    (allowSubs : Bool) (key : String) : Option String :=
  if key ∈ available then none
  else if allowSubs then firstAlt subs available key
  else none

/-- Decision derivative of the ingredient loop: whether a normalized key ends up
covered (directly or through a substitution). -/
def keyCovered (subs : List (String × List String)) (available : List String)
    (allowSubs : Bool) (key : String) : Prop :=
  key ∈ available ∨ (viaSub subs available allowSubs key).isSome = true

instance (subs available allowSubs key) :
    Decidable (keyCovered subs available allowSubs key) := by
  unfold keyCovered
  infer_instance

/-- One iteration of the ingredient loop of `_compute_missing_and_subs`. -/
def cmsStep (subs : List (String × List String)) (available : List String)
    (allowSubs : Bool) (acc : Coverage) (ing : String) : Coverage :=
  let key := normalize ing
  if key ∈ available then
    { acc with covered := addSet acc.covered key }
  else if allowSubs then
    match firstAlt subs available key with
    | some alt =>
      { acc with covered := addSet acc.covered key,
                 subs_used := alInsert acc.subs_used key alt }
    | none => { acc with missing := addSet acc.missing key }
  else
    { acc with missing := addSet acc.missing key }

/-- The coverage resolver `FlavorGraphEngine._compute_missing_and_subs`. -/
def compute_missing_and_subs (subs : List (String × List String)) (recipe : Recipe)
    (available : List String) (allowSubs : Bool) : Coverage :=
  recipe.ingredients.foldl (cmsStep subs available allowSubs) ⟨[], [], []⟩

/-- Single-recipe score `FlavorGraphEngine._score_recipe`, scaled by 10:
`len(set(covered)) - (len(set(missing)) + 0.2 * len(subs_used))`. -/
def score_recipe (covered missing : List String) (subs_used : List (String × String)) : Int :=
  10 * covered.dedup.length - (10 * missing.dedup.length + 2 * subs_used.length)

/-- Plan score `FlavorGraphEngine._score_plan`, scaled by 10:
`len(covered) - 1.5 * len(missing) - 0.2 * len(subs_used)`. -/
def score_plan (covered missing : List String) (subs_used : List (String × String)) : Int :=
  10 * covered.length - 15 * missing.length - 2 * subs_used.length

/-- Python `sorted` on a list of strings. -/
def sortStr (l : List String) : List String := l.insertionSort strLe

/-- Accessor `FlavorGraphEngine.get_all_ingredients`: the raw ingredient strings of
all recipes are accumulated into a set and sorted. -/
def get_all_ingredients (e : Engine) : List String :=
  sortStr ((e.recipes.foldl (fun acc r => acc ++ r.ingredients) []).dedup)

/-- The dataclass `SuggestionRequest`. -/
structure SuggestionRequest where
  available_ingredients : List String
  max_missing : Int := 3
  allow_substitutions : Bool := true
  max_suggestions : Nat := 8
  plan_size : Nat := 1
  prioritize_min_missing : Bool := true
deriving DecidableEq

/-- The normalized availability set built at the top of `suggest_recipes`. -/
def availOf (req : SuggestionRequest) : List String :=
  req.available_ingredients.map normalize

/-- The per-recipe detail record stored in `greedy_scores` entries. -/
structure Details where
  missing : List String
  covered : List String
  subs : List (String × String)
deriving DecidableEq

/-- One `greedy_scores` entry: recipe id, single-recipe score, detail record. -/
abbrev Cand : Type := String × Int × Details

/-- The entry `suggest_recipes` builds for one surviving recipe. -/
def candOf (e : Engine) (req : SuggestionRequest) (r : Recipe) : Cand :=
  let cov := compute_missing_and_subs e.substitutions r (availOf req) req.allow_substitutions
  (r.id, score_recipe cov.covered cov.missing cov.subs_used,
    ⟨sortStr cov.missing, sortStr cov.covered, cov.subs_used⟩)

/-- Stage-1 filtering loop of `suggest_recipes`: recipes whose missing count is
within `max_missing`, in catalog order. -/
def greedyScores (e : Engine) (req : SuggestionRequest) : List Cand :=
  e.recipes.filterMap (fun r =>
    if ((compute_missing_and_subs e.substitutions r (availOf req)
          req.allow_substitutions).missing.length : Int) ≤ req.max_missing
    then some (candOf e req r) else none)

/-- Catalog lookup `self.recipes[rid]` (first recipe with the given id). -/
def findRecipe (e : Engine) (rid : String) : Option Recipe :=
  e.recipes.find? (fun r => r.id == rid)

/-- Ingredient count of the recipe behind a candidate id, the primary sort key
`len(self.recipes[x[0]].get("ingredients", []))`. -/
def ingCount (e : Engine) (rid : String) : Nat :=
  match findRecipe e rid with
  | some r => r.ingredients.length
  | none => 0

/-- The sort order of stage 1: ascending `(ingredient count, -score)` when
`prioritize_min_missing` is set, otherwise ascending `-score`. -/
def candLE (e : Engine) (req : SuggestionRequest) (a b : Cand) : Prop :=
  if req.prioritize_min_missing then
    ingCount e a.1 < ingCount e b.1 ∨ (ingCount e a.1 = ingCount e b.1 ∧ b.2.1 ≤ a.2.1)
  else
    b.2.1 ≤ a.2.1

instance (e : Engine) (req : SuggestionRequest) : DecidableRel (candLE e req) := by
  intro a b
  unfold candLE
  infer_instance

/-- Stage-1 shortlist `top_candidates`: the survivors sorted stably and truncated
to `max(25, max_suggestions * 3)` entries. -/
def topCandidates (e : Engine) (req : SuggestionRequest) : List Cand :=
  ((greedyScores e req).insertionSort (candLE e req)).take (max 25 (req.max_suggestions * 3))

/-- Mutable search state captured by the `backtrack` closure: `best_plan`,
`best_plan_score` (`none` is `-inf`) and `best_plan_details`. -/
structure BTState where
  best_plan : List String
  best_score : Option Int
  best_details : List (String × Details)
deriving DecidableEq

/-- Strict improvement test `score > best_plan_score` with `-inf` as the base. -/
def beats (s : Int) : Option Int → Bool
  | none => true
  | some b => decide (b < s)

/-- The dict `{rid: det for rid, _, det in chosen}`. -/
def detailsOf (chosen : List Cand) : List (String × Details) :=
  chosen.map (fun c => (c.1, c.2.2))

/-- Aggregated `plan_missing` of a plan: union of the member missing sets. -/
def planMissing (ds : List (String × Details)) : List String :=
  ds.foldl (fun s p => setUnion s p.2.missing) []

/-- Aggregated `plan_covered` of a plan. -/
def planCovered (ds : List (String × Details)) : List String :=
  ds.foldl (fun s p => setUnion s p.2.covered) []

/-- Aggregated `plan_subs` of a plan: dict union of the member substitution dicts. -/
def planSubs (ds : List (String × Details)) : List (String × String) :=
  ds.foldl (fun d p => alUpdate d p.2.subs) []

/-- The plan score of a subset of candidates, as computed at evaluation time. -/
def planScoreOf (chosen : List Cand) : Int :=
  score_plan (planCovered (detailsOf chosen)) (planMissing (detailsOf chosen))
    (planSubs (detailsOf chosen))

/-- Evaluation of the current subset inside `backtrack`: if the aggregated missing
count is within budget and the plan score strictly beats the best, record it. -/
def evalPlan (req : SuggestionRequest) (chosen : List Cand) (st : BTState) : BTState :=
  if ((planMissing (detailsOf chosen)).length : Int) ≤ req.max_missing then
    if beats (planScoreOf chosen) st.best_score then
      ⟨chosen.map (fun c => c.1), some (planScoreOf chosen), detailsOf chosen⟩
    else st
  else st

/-- The candidate loop of `backtrack`, with the body of the recursive call
`backtrack(i + 1, chosen + [cand], used | covered)` inlined (see `btStep`, which
names exactly that inner expression). -/
def btLoop (e : Engine) (req : SuggestionRequest) :
    List Cand → List Cand → List String → BTState → BTState
  | _, [], _, st => st
  | chosen, c :: rs, used, st =>
    if ((c.2.2.missing.dedup.filter (fun x => decide (x ∉ used))).length : Int) >
        req.max_missing then
      btLoop e req chosen rs used st
    else
      btLoop e req chosen rs used
        (if (chosen ++ [c]).length > req.plan_size then st
         else if (chosen ++ [c]).length = req.plan_size then
           evalPlan req (chosen ++ [c]) st
         else
           btLoop e req (chosen ++ [c]) rs (used ++ c.2.2.covered)
             (evalPlan req (chosen ++ [c]) st))

/-- The body of `backtrack(start_idx, chosen, used)`: depth prune, evaluation of
the current subset, then the candidate loop over the remaining shortlist. -/
def btStep (e : Engine) (req : SuggestionRequest) (chosen rest : List Cand)
    (used : List String) (st : BTState) : BTState :=
  if chosen.length > req.plan_size then st
  else if chosen.length = req.plan_size then evalPlan req chosen st
  else btLoop e req chosen rest used (evalPlan req chosen st)

/-- The full search `backtrack(0, [], set())` on the stage-1 shortlist. -/
def btRun (e : Engine) (req : SuggestionRequest) : BTState :=
  btStep e req [] (topCandidates e req) [] ⟨[], none, []⟩

/-- What one loop iteration of the search amounts to when plan_size is 1: a
strict-improvement single-candidate argmax step. -/
def bestSingleStep (st : BTState) (c : Cand) : BTState :=
  if beats (planScoreOf [c]) st.best_score then
    ⟨[c.1], some (planScoreOf [c]), detailsOf [c]⟩
  else st

/-- Invariant of the plan-size-1 argmax fold after seeing `processed`: either no
processed candidate has positive plan score and the state still holds the empty
plan with score 0, or the state holds the earliest processed candidate attaining
the maximal (positive) plan score. -/
def bestSingleInv (processed : List Cand) (st : BTState) : Prop :=
  (st = ⟨[], some 0, []⟩ ∧ ∀ c ∈ processed, planScoreOf [c] ≤ 0) ∨
  (∃ pre c' post, processed = pre ++ c' :: post ∧
    st = ⟨[c'.1], some (planScoreOf [c']), detailsOf [c']⟩ ∧
    0 < planScoreOf [c'] ∧
    (∀ d ∈ processed, planScoreOf [d] ≤ planScoreOf [c']) ∧
    (∀ d ∈ pre, planScoreOf [d] < planScoreOf [c']))

/-- One suggestion record of the response. -/
structure Suggestion where
  id : String
  title : String
  ingredients : List String
  instructions : List String
  tags : List String
  missing : List String
  covered : List String
  substitutions : List (String × String)
deriving DecidableEq

/-- The response of `suggest_recipes`. -/
structure SuggestResponse where
  suggestions : List Suggestion
  plan_size : Nat
  max_missing : Int
deriving DecidableEq

/-- The empty detail record `{"missing": [], "covered": [], "subs": {}}` used as
default by `best_plan_details.get`. -/
def defaultDetails : Details := ⟨[], [], []⟩

/-- Assembly of one suggestion record from a plan member id. -/
def assemble (e : Engine) (details : List (String × Details)) (rid : String) :
    Option Suggestion :=
  match findRecipe e rid with
  | none => none
  | some r =>
    let det := (alLookup details rid).getD defaultDetails
    some ⟨rid, r.title, r.ingredients, r.instructions, r.tags,
      det.missing, det.covered, det.subs⟩

/-- The stage-3 fallback body: suggestions built from the first `max_suggestions`
shortlist entries. -/
def fallbackSuggestions (e : Engine) (req : SuggestionRequest) : List Suggestion :=
  let tk := (topCandidates e req).take req.max_suggestions
  ((tk.map (fun c => c.1)).take req.max_suggestions).filterMap (assemble e (detailsOf tk))

/-- The public operation `FlavorGraphEngine.suggest_recipes`. -/
def suggest_recipes (e : Engine) (req : SuggestionRequest) : SuggestResponse :=
  let st := btRun e req
  if st.best_plan = [] then
    ⟨fallbackSuggestions e req, req.plan_size, req.max_missing⟩
  else
    ⟨(st.best_plan.take req.max_suggestions).filterMap (assemble e st.best_details),
      req.plan_size, req.max_missing⟩

/-- One entry of the gap-analysis response. -/
structure GapEntry where
  title : String
  missing : List String
  covered : List String
  substitution_candidates : List (String × List String)
deriving DecidableEq

/-- The gap record built for one known recipe id (substitutions always allowed). -/
def mkGapEntry (e : Engine) (r : Recipe) (availableSet : List String) : GapEntry :=
  let cov := compute_missing_and_subs e.substitutions r availableSet true
  ⟨r.title, sortStr cov.missing, sortStr cov.covered,
    cov.missing.map (fun m => (m, subsGet e.substitutions m))⟩

/-- The public operation `FlavorGraphEngine.analyze_gaps`; the returned dict is the
association list of its entries. -/
def analyze_gaps (e : Engine) (recipe_ids : List String) (available : List String) :
    List (String × GapEntry) :=
  let availableSet := available.map normalize
  recipe_ids.foldl (fun gaps rid =>
    match findRecipe e rid with
    | none => gaps
    | some r => alInsert gaps rid (mkGapEntry e r availableSet)) []

/-! Concrete data used by witnesses and counterexamples. -/

/-- Witness recipe R1 of the end-to-end example in the spec. -/
def recR1 : Recipe := ⟨"r1", "R1", ["eggs", "flour", "milk"], [], []⟩

/-- Witness recipe R2 of the end-to-end example in the spec. -/
def recR2 : Recipe := ⟨"r2", "R2", ["eggs", "sugar"], [], []⟩

/-- Witness catalog with the two spec recipes and the milk-to-water substitution. -/
def egEngine : Engine := ⟨[recR1, recR2], [("milk", ["water"])]⟩

/-- Witness request of the end-to-end example in the spec. -/
def egRequest : SuggestionRequest :=
  ⟨["eggs", "flour", "water"], 1, true, 8, 1, true⟩

/-- Catalog of two one-ingredient recipes used by the plan-size-one counterexample. -/
def cexEngine : Engine := ⟨[⟨"a1", "A1", ["a"], [], []⟩, ⟨"a2", "A2", ["b"], [], []⟩], []⟩

/-- Request with everything available and plan size one, used by the plan-size-one
counterexample. -/
def cexRequest : SuggestionRequest := ⟨["a", "b"], 3, true, 8, 1, true⟩

/-- Catalog with one recipe whose stored ingredient name is unnormalized. -/
def rawEngine : Engine := ⟨[⟨"r", "R", ["Eggs "], [], []⟩], []⟩

/-- Engine where nothing is available, used to exercise the fallback path. -/
def poorEngine : Engine := ⟨[⟨"p1", "P1", ["a"], [], []⟩], []⟩

/-- Request with nothing available, used to exercise the fallback path. -/
def poorRequest : SuggestionRequest := ⟨[], 3, true, 8, 2, true⟩

example :
    compute_missing_and_subs [("milk", ["water"])] recR1 ["eggs", "flour", "water"] true
      = ⟨[], ["eggs", "flour", "milk"], [("milk", "water")]⟩ := by decide

example :
    compute_missing_and_subs [] recR2 ["eggs"] true = ⟨["sugar"], ["eggs"], []⟩ := by decide

example : get_all_ingredients rawEngine = ["Eggs "] := by decide

example : normalize "Eggs " = "eggs" := by decide

example : (suggest_recipes egEngine egRequest).suggestions.map (fun s => s.id) = ["r1"] := by
  decide

example : (suggest_recipes cexEngine cexRequest).suggestions.map (fun s => s.id) = ["a1"] := by
  decide

example : (suggest_recipes poorEngine poorRequest).suggestions.map (fun s => s.id) = ["p1"] := by
  decide

example :
    alLookup (analyze_gaps egEngine ["r2", "zz"] ["eggs"]) "r2"
      = some ⟨"R2", ["sugar"], ["eggs"], [("sugar", [])]⟩ := by decide

example : alLookup (analyze_gaps egEngine ["r2", "zz"] ["eggs"]) "zz" = none := by decide

/-! Basic lemmas about the set and dict models. -/

theorem mem_addSet {s : List String} {x y : String} :
    y ∈ addSet s x ↔ y ∈ s ∨ y = x := by
  unfold addSet
  split
  · next h =>
    constructor
    · exact Or.inl
    · rintro (hy | rfl)
      · exact hy
      · exact h
  · simp

theorem nodup_addSet {s : List String} {x : String} (h : s.Nodup) :
    (addSet s x).Nodup := by
  unfold addSet
  split
  · exact h
  · next hx =>
    rw [List.nodup_append]
    refine ⟨h, List.nodup_singleton x, ?_⟩
    intro a ha hb
    rw [List.mem_singleton] at hb
    exact hx (hb ▸ ha)

theorem mem_setUnion {l s : List String} {x : String} :
    x ∈ setUnion s l ↔ x ∈ s ∨ x ∈ l := by
  induction l generalizing s with
  | nil => simp [setUnion]
  | cons a l ih =>
    show x ∈ setUnion (addSet s a) l ↔ _
    rw [ih, mem_addSet]
    simp only [List.mem_cons]
    tauto

theorem nodup_setUnion {l s : List String} (h : s.Nodup) : (setUnion s l).Nodup := by
  induction l generalizing s with
  | nil => exact h
  | cons a l ih => exact ih (nodup_addSet h)

theorem setUnion_disjoint_eq {l s : List String} (hl : l.Nodup)
    (hd : ∀ x ∈ l, x ∉ s) : setUnion s l = s ++ l := by
  induction l generalizing s with
  | nil => simp [setUnion]
  | cons a l ih =>
    have ha : addSet s a = s ++ [a] := by
      unfold addSet
      rw [if_neg (hd a (List.mem_cons_self a l))]
    show setUnion (addSet s a) l = _
    rw [ha, ih hl.of_cons]
    · simp
    · intro x hx
      rw [List.mem_append, List.mem_singleton]
      rintro (hs | rfl)
      · exact hd x (List.mem_cons_of_mem a hx) hs
      · exact (List.nodup_cons.1 hl).1 hx

theorem setUnion_nil_eq {l : List String} (hl : l.Nodup) : setUnion [] l = l := by
  simpa using setUnion_disjoint_eq hl (by simp)

theorem alLookup_alInsert_self {β : Type} (d : List (String × β)) (k : String) (v : β) :
    alLookup (alInsert d k v) k = some v := by
  induction d with
  | nil => simp [alInsert, alLookup]
  | cons p d ih =>
    unfold alInsert
    split
    · simp [alLookup]
    · next h => simp [alLookup, h, ih]

theorem alLookup_alInsert_ne {β : Type} (d : List (String × β)) (k k' : String) (v : β)
    (h : k ≠ k') : alLookup (alInsert d k v) k' = alLookup d k' := by
  induction d with
  | nil => simp [alInsert, alLookup, h]
  | cons p d ih =>
    unfold alInsert
    split
    · next he =>
      simp only [alLookup]
      rw [if_neg (by rw [← he] at h ⊢; exact h), if_neg (he ▸ h)]
    · simp only [alLookup]
      split
      · rfl
      · exact ih

theorem keys_alInsert {β : Type} (d : List (String × β)) (k : String) (v : β) {x : String} :
    x ∈ (alInsert d k v).map Prod.fst ↔ x ∈ d.map Prod.fst ∨ x = k := by
  induction d with
  | nil => simp [alInsert]
  | cons p d ih =>
    unfold alInsert
    split
    · next he => simp [he, or_comm, or_assoc]
    · simp only [List.map_cons, List.mem_cons, ih]
      tauto

theorem nodup_keys_alInsert {β : Type} (d : List (String × β)) (k : String) (v : β)
    (h : (d.map Prod.fst).Nodup) : ((alInsert d k v).map Prod.fst).Nodup := by
  induction d with
  | nil => simp [alInsert]
  | cons p d ih =>
    rw [List.map_cons, List.nodup_cons] at h
    unfold alInsert
    split
    · next he =>
      rw [List.map_cons, List.nodup_cons]
      exact ⟨he ▸ h.1, h.2⟩
    · next he =>
      rw [List.map_cons, List.nodup_cons]
      refine ⟨?_, ih h.2⟩
      intro hmem
      rcases (keys_alInsert d k v).1 hmem with hm | rfl
      · exact h.1 hm
      · exact he rfl

theorem alLookup_mem {β : Type} {d : List (String × β)} {k : String} {v : β}
    (h : alLookup d k = some v) : (k, v) ∈ d := by
  induction d with
  | nil => simp [alLookup] at h
  | cons p d ih =>
    unfold alLookup at h
    split at h
    · next he =>
      obtain rfl : p.2 = v := Option.some.inj h
      exact he ▸ (List.mem_cons_self p d)
    · exact List.mem_cons_of_mem p (ih h)

theorem keys_alUpdate {β : Type} (d e : List (String × β)) {x : String} :
    x ∈ (alUpdate d e).map Prod.fst ↔ x ∈ d.map Prod.fst ∨ x ∈ e.map Prod.fst := by
  induction e generalizing d with
  | nil => simp [alUpdate]
  | cons p e ih =>
    show x ∈ (alUpdate (alInsert d p.1 p.2) e).map Prod.fst ↔ _
    rw [ih, keys_alInsert]
    simp only [List.map_cons, List.mem_cons]
    tauto

theorem nodup_keys_alUpdate {β : Type} (d e : List (String × β))
    (h : (d.map Prod.fst).Nodup) : ((alUpdate d e).map Prod.fst).Nodup := by
  induction e generalizing d with
  | nil => exact h
  | cons p e ih => exact ih _ (nodup_keys_alInsert d p.1 p.2 h)

/-! Lemmas about the string order and `sortStr`. -/

theorem listLe_total : ∀ as bs : List Char, listLe as bs = true ∨ listLe bs as = true := by
  intro as
  induction as with
  | nil => intro bs; left; rfl
  | cons a as ih =>
    intro bs
    cases bs with
    | nil => right; rfl
    | cons b bs =>
      rcases Nat.lt_trichotomy a.toNat b.toNat with h | h | h
      · left; simp [listLe, h]
      · have h1 : ¬ a.toNat < b.toNat := by omega
        have h2 : ¬ b.toNat < a.toNat := by omega
        rcases ih bs with hl | hl
        · left; simpa [listLe, h1, h2] using hl
        · right; simpa [listLe, h1, h2] using hl
      · right; simp [listLe, h]

theorem listLe_trans : ∀ as bs cs : List Char,
    listLe as bs = true → listLe bs cs = true → listLe as cs = true := by
  intro as
  induction as with
  | nil => intro bs cs _ _; rfl
  | cons a as ih =>
    intro bs cs hab hbc
    cases bs with
    | nil => simp [listLe] at hab
    | cons b bs =>
      cases cs with
      | nil => simp [listLe] at hbc
      | cons c cs =>
        simp only [listLe] at hab hbc ⊢
        rcases Nat.lt_trichotomy a.toNat c.toNat with h | h | h
        · simp [h]
        · have h1 : ¬ a.toNat < c.toNat := by omega
          have h2 : ¬ c.toNat < a.toNat := by omega
          simp only [h1, if_false, h2, if_true, if_neg, reduceIte]
          by_cases hab1 : a.toNat < b.toNat
          · by_cases hbc1 : b.toNat < c.toNat
            · omega
            · have : ¬ c.toNat < b.toNat := by
                intro hc
                rw [if_neg (by omega : ¬ b.toNat < c.toNat), if_pos hc] at hbc
                exact Bool.false_ne_true hbc
              omega
          · have hba : ¬ b.toNat < a.toNat := by
              intro hb
              rw [if_neg hab1, if_pos hb] at hab
              exact Bool.false_ne_true hab
            have hab2 : a.toNat = b.toNat := by omega
            by_cases hbc1 : b.toNat < c.toNat
            · omega
            · have hcb : ¬ c.toNat < b.toNat := by
                intro hc
                rw [if_neg hbc1, if_pos hc] at hbc
                exact Bool.false_ne_true hbc
              have hbc2 : b.toNat = c.toNat := by omega
              rw [if_neg hab1, if_neg hba] at hab
              rw [if_neg hbc1, if_neg hcb] at hbc
              exact ih bs cs hab hbc
        · exfalso
          by_cases hab1 : a.toNat < b.toNat
          · by_cases hbc1 : b.toNat < c.toNat
            · omega
            · have : ¬ c.toNat < b.toNat := by
                intro hc
                rw [if_neg hbc1, if_pos hc] at hbc
                exact Bool.false_ne_true hbc
              omega
          · have hba : ¬ b.toNat < a.toNat := by
              intro hb
              rw [if_neg hab1, if_pos hb] at hab
              exact Bool.false_ne_true hab
            by_cases hbc1 : b.toNat < c.toNat
            · omega
            · have : ¬ c.toNat < b.toNat := by
                intro hc
                rw [if_neg hbc1, if_pos hc] at hbc
                exact Bool.false_ne_true hbc
              omega

theorem strLe_total (a b : String) : strLe a b ∨ strLe b a := listLe_total a.data b.data

theorem strLe_trans {a b c : String} (h1 : strLe a b) (h2 : strLe b c) : strLe a c :=
  listLe_trans a.data b.data c.data h1 h2

theorem sortStr_perm (l : List String) : (sortStr l).Perm l :=
  List.perm_insertionSort _ l

theorem mem_sortStr {l : List String} {x : String} : x ∈ sortStr l ↔ x ∈ l :=
  (sortStr_perm l).mem_iff

theorem length_sortStr (l : List String) : (sortStr l).length = l.length :=
  (sortStr_perm l).length_eq

theorem nodup_sortStr {l : List String} (h : l.Nodup) : (sortStr l).Nodup :=
  ((sortStr_perm l).nodup_iff).2 h

theorem sortStr_sorted (l : List String) : (sortStr l).Sorted strLe := by
  haveI : IsTotal String strLe := ⟨strLe_total⟩
  haveI : IsTrans String strLe := ⟨fun _ _ _ => strLe_trans⟩
  exact List.sorted_insertionSort strLe l

/-! Characterization of the coverage resolver. -/

theorem cmsStep_missing (subs : List (String × List String)) (available : List String)
    (allowSubs : Bool) (acc : Coverage) (ing : String) :
    (cmsStep subs available allowSubs acc ing).missing =
      if keyCovered subs available allowSubs (normalize ing) then acc.missing
      else addSet acc.missing (normalize ing) := by
  unfold cmsStep keyCovered viaSub
  by_cases h1 : normalize ing ∈ available
  · simp [h1]
  · cases allowSubs with
    | false => simp [h1]
    | true =>
      simp only [h1, if_neg, if_false, if_true, reduceIte]
      cases hfa : firstAlt subs available (normalize ing) with
      | none => simp [h1, hfa]
      | some alt => simp [h1, hfa]

theorem cmsStep_covered (subs : List (String × List String)) (available : List String)
    (allowSubs : Bool) (acc : Coverage) (ing : String) :
    (cmsStep subs available allowSubs acc ing).covered =
      if keyCovered subs available allowSubs (normalize ing) then
        addSet acc.covered (normalize ing)
      else acc.covered := by
  unfold cmsStep keyCovered viaSub
  by_cases h1 : normalize ing ∈ available
  · simp [h1]
  · cases allowSubs with
    | false => simp [h1]
    | true =>
      simp only [h1, if_neg, if_false, if_true, reduceIte]
      cases hfa : firstAlt subs available (normalize ing) with
      | none => simp [h1, hfa]
      | some alt => simp [h1, hfa]

theorem cmsStep_subs (subs : List (String × List String)) (available : List String)
    (allowSubs : Bool) (acc : Coverage) (ing : String) :
    (cmsStep subs available allowSubs acc ing).subs_used =
      match viaSub subs available allowSubs (normalize ing) with
      | some alt => alInsert acc.subs_used (normalize ing) alt
      | none => acc.subs_used := by
  unfold cmsStep viaSub
  by_cases h1 : normalize ing ∈ available
  · simp [h1]
  · cases allowSubs with
    | false => simp [h1]
    | true =>
      simp only [h1, if_neg, if_false, if_true, reduceIte]
      cases hfa : firstAlt subs available (normalize ing) with
      | none => simp [h1, hfa]
      | some alt => simp [h1, hfa]

theorem cms_foldl_missing (subs : List (String × List String)) (available : List String)
    (allowSubs : Bool) :
    ∀ (l : List String) (acc : Coverage) (x : String),
      x ∈ (l.foldl (cmsStep subs available allowSubs) acc).missing ↔
        x ∈ acc.missing ∨
          (x ∈ l.map normalize ∧ ¬ keyCovered subs available allowSubs x) := by
  intro l
  induction l with
  | nil => simp
  | cons ing rest ih =>
    intro acc x
    rw [List.foldl_cons, ih, cmsStep_missing]
    by_cases hk : keyCovered subs available allowSubs (normalize ing)
    · rw [if_pos hk]
      simp only [List.map_cons, List.mem_cons]
      constructor
      · rintro (h | ⟨h1, h2⟩)
        · exact Or.inl h
        · exact Or.inr ⟨Or.inr h1, h2⟩
      · rintro (h | ⟨(rfl | h1), h2⟩)
        · exact Or.inl h
        · exact absurd hk h2
        · exact Or.inr ⟨h1, h2⟩
    · rw [if_neg hk]
      simp only [List.map_cons, List.mem_cons, mem_addSet]
      constructor
      · rintro ((h | rfl) | ⟨h1, h2⟩)
        · exact Or.inl h
        · exact Or.inr ⟨Or.inl rfl, hk⟩
        · exact Or.inr ⟨Or.inr h1, h2⟩
      · rintro (h | ⟨(rfl | h1), h2⟩)
        · exact Or.inl (Or.inl h)
        · exact Or.inl (Or.inr rfl)
        · exact Or.inr ⟨h1, h2⟩

theorem cms_foldl_covered (subs : List (String × List String)) (available : List String)
    (allowSubs : Bool) :
    ∀ (l : List String) (acc : Coverage) (x : String),
      x ∈ (l.foldl (cmsStep subs available allowSubs) acc).covered ↔
        x ∈ acc.covered ∨
          (x ∈ l.map normalize ∧ keyCovered subs available allowSubs x) := by
  intro l
  induction l with
  | nil => simp
  | cons ing rest ih =>
    intro acc x
    rw [List.foldl_cons, ih, cmsStep_covered]
    by_cases hk : keyCovered subs available allowSubs (normalize ing)
    · rw [if_pos hk]
      simp only [List.map_cons, List.mem_cons, mem_addSet]
      constructor
      · rintro ((h | rfl) | ⟨h1, h2⟩)
        · exact Or.inl h
        · exact Or.inr ⟨Or.inl rfl, hk⟩
        · exact Or.inr ⟨Or.inr h1, h2⟩
      · rintro (h | ⟨(rfl | h1), h2⟩)
        · exact Or.inl (Or.inl h)
        · exact Or.inl (Or.inr rfl)
        · exact Or.inr ⟨h1, h2⟩
    · rw [if_neg hk]
      simp only [List.map_cons, List.mem_cons]
      constructor
      · rintro (h | ⟨h1, h2⟩)
        · exact Or.inl h
        · exact Or.inr ⟨Or.inr h1, h2⟩
      · rintro (h | ⟨(rfl | h1), h2⟩)
        · exact Or.inl h
        · exact absurd h2 hk
        · exact Or.inr ⟨h1, h2⟩

theorem cms_foldl_subs_keys (subs : List (String × List String)) (available : List String)
    (allowSubs : Bool) :
    ∀ (l : List String) (acc : Coverage) (x : String),
      x ∈ (l.foldl (cmsStep subs available allowSubs) acc).subs_used.map Prod.fst ↔
        x ∈ acc.subs_used.map Prod.fst ∨
          (x ∈ l.map normalize ∧ (viaSub subs available allowSubs x).isSome = true) := by
  intro l
  induction l with
  | nil => simp
  | cons ing rest ih =>
    intro acc x
    rw [List.foldl_cons, ih]
    have hsubs := cmsStep_subs subs available allowSubs acc ing
    cases hv : viaSub subs available allowSubs (normalize ing) with
    | none =>
      rw [hv] at hsubs
      rw [hsubs]
      simp only [List.map_cons, List.mem_cons]
      constructor
      · rintro (h | ⟨h1, h2⟩)
        · exact Or.inl h
        · exact Or.inr ⟨Or.inr h1, h2⟩
      · rintro (h | ⟨(rfl | h1), h2⟩)
        · exact Or.inl h
        · rw [hv] at h2; simp at h2
        · exact Or.inr ⟨h1, h2⟩
    | some alt =>
      rw [hv] at hsubs
      rw [hsubs]
      simp only [List.map_cons, List.mem_cons, keys_alInsert]
      constructor
      · rintro ((h | rfl) | ⟨h1, h2⟩)
        · exact Or.inl h
        · exact Or.inr ⟨Or.inl rfl, by rw [hv]; rfl⟩
        · exact Or.inr ⟨Or.inr h1, h2⟩
      · rintro (h | ⟨(rfl | h1), h2⟩)
        · exact Or.inl (Or.inl h)
        · exact Or.inl (Or.inr rfl)
        · exact Or.inr ⟨h1, h2⟩

theorem cms_foldl_subs_lookup (subs : List (String × List String)) (available : List String)
    (allowSubs : Bool) :
    ∀ (l : List String) (acc : Coverage) (x : String),
      alLookup (l.foldl (cmsStep subs available allowSubs) acc).subs_used x =
        if x ∈ l.map normalize ∧ (viaSub subs available allowSubs x).isSome = true then
          viaSub subs available allowSubs x
        else alLookup acc.subs_used x := by
  intro l
  induction l with
  | nil => simp
  | cons ing rest ih =>
    intro acc x
    rw [List.foldl_cons, ih]
    have hsubs := cmsStep_subs subs available allowSubs acc ing
    by_cases hrest : x ∈ rest.map normalize ∧ (viaSub subs available allowSubs x).isSome = true
    · rw [if_pos hrest, if_pos ⟨List.mem_cons_of_mem _ hrest.1, hrest.2⟩]
    · rw [if_neg hrest]
      by_cases hx : x = normalize ing
      · rw [hx]
        cases hv : viaSub subs available allowSubs (normalize ing) with
        | none =>
          rw [hv] at hsubs
          rw [hsubs]
          rw [if_neg]
          rintro ⟨_, h2⟩
          simp at h2
        | some alt =>
          rw [hv] at hsubs
          rw [hsubs, alLookup_alInsert_self,
            if_pos ⟨List.mem_map_of_mem normalize (List.mem_cons_self ing rest), rfl⟩]
      · have hnin : ¬ (x ∈ (ing :: rest).map normalize ∧
            (viaSub subs available allowSubs x).isSome = true) := by
          rintro ⟨h1, h2⟩
          rcases List.mem_map.1 h1 with ⟨a, ha, hae⟩
          rcases List.mem_cons.1 ha with rfl | ha'
          · exact hx hae.symm
          · exact hrest ⟨List.mem_map.2 ⟨a, ha', hae⟩, h2⟩
        rw [if_neg hnin]
        cases hv : viaSub subs available allowSubs (normalize ing) with
        | none =>
          rw [hv] at hsubs
          rw [hsubs]
        | some alt =>
          rw [hv] at hsubs
          rw [hsubs, alLookup_alInsert_ne _ _ _ _ (fun h => hx h.symm)]

theorem cms_foldl_missing_nodup (subs : List (String × List String)) (available : List String)
    (allowSubs : Bool) :
    ∀ (l : List String) (acc : Coverage), acc.missing.Nodup →
      (l.foldl (cmsStep subs available allowSubs) acc).missing.Nodup := by
  intro l
  induction l with
  | nil => exact fun acc h => h
  | cons ing rest ih =>
    intro acc h
    rw [List.foldl_cons]
    apply ih
    rw [cmsStep_missing]
    split
    · exact h
    · exact nodup_addSet h

theorem cms_foldl_covered_nodup (subs : List (String × List String)) (available : List String)
    (allowSubs : Bool) :
    ∀ (l : List String) (acc : Coverage), acc.covered.Nodup →
      (l.foldl (cmsStep subs available allowSubs) acc).covered.Nodup := by
  intro l
  induction l with
  | nil => exact fun acc h => h
  | cons ing rest ih =>
    intro acc h
    rw [List.foldl_cons]
    apply ih
    rw [cmsStep_covered]
    split
    · exact nodup_addSet h
    · exact h

theorem cms_foldl_subs_keys_nodup (subs : List (String × List String))
    (available : List String) (allowSubs : Bool) :
    ∀ (l : List String) (acc : Coverage), (acc.subs_used.map Prod.fst).Nodup →
      ((l.foldl (cmsStep subs available allowSubs) acc).subs_used.map Prod.fst).Nodup := by
  intro l
  induction l with
  | nil => exact fun acc h => h
  | cons ing rest ih =>
    intro acc h
    rw [List.foldl_cons]
    apply ih
    rw [cmsStep_subs]
    cases viaSub subs available allowSubs (normalize ing) with
    | none => exact h
    | some alt => exact nodup_keys_alInsert _ _ _ h

theorem cms_missing_mem (subs : List (String × List String)) (r : Recipe)
    (available : List String) (allowSubs : Bool) (x : String) :
    x ∈ (compute_missing_and_subs subs r available allowSubs).missing ↔
      x ∈ r.ingredients.map normalize ∧ ¬ keyCovered subs available allowSubs x := by
  unfold compute_missing_and_subs
  rw [cms_foldl_missing]
  simp

theorem cms_covered_mem (subs : List (String × List String)) (r : Recipe)
    (available : List String) (allowSubs : Bool) (x : String) :
    x ∈ (compute_missing_and_subs subs r available allowSubs).covered ↔
      x ∈ r.ingredients.map normalize ∧ keyCovered subs available allowSubs x := by
  unfold compute_missing_and_subs
  rw [cms_foldl_covered]
  simp

theorem cms_subs_keys_mem (subs : List (String × List String)) (r : Recipe)
    (available : List String) (allowSubs : Bool) (x : String) :
    x ∈ (compute_missing_and_subs subs r available allowSubs).subs_used.map Prod.fst ↔
      x ∈ r.ingredients.map normalize ∧ (viaSub subs available allowSubs x).isSome = true := by
  unfold compute_missing_and_subs
  rw [cms_foldl_subs_keys]
  simp

theorem cms_subs_lookup (subs : List (String × List String)) (r : Recipe)
    (available : List String) (allowSubs : Bool) (x : String) :
    alLookup (compute_missing_and_subs subs r available allowSubs).subs_used x =
      if x ∈ r.ingredients.map normalize ∧ (viaSub subs available allowSubs x).isSome = true
      then viaSub subs available allowSubs x
      else none := by
  unfold compute_missing_and_subs
  rw [cms_foldl_subs_lookup]
  split
  · rfl
  · rfl

theorem cms_missing_nodup (subs : List (String × List String)) (r : Recipe)
    (available : List String) (allowSubs : Bool) :
    (compute_missing_and_subs subs r available allowSubs).missing.Nodup :=
  cms_foldl_missing_nodup subs available allowSubs r.ingredients ⟨[], [], []⟩ List.nodup_nil

theorem cms_covered_nodup (subs : List (String × List String)) (r : Recipe)
    (available : List String) (allowSubs : Bool) :
    (compute_missing_and_subs subs r available allowSubs).covered.Nodup :=
  cms_foldl_covered_nodup subs available allowSubs r.ingredients ⟨[], [], []⟩ List.nodup_nil

theorem cms_subs_keys_nodup (subs : List (String × List String)) (r : Recipe)
    (available : List String) (allowSubs : Bool) :
    ((compute_missing_and_subs subs r available allowSubs).subs_used.map Prod.fst).Nodup :=
  cms_foldl_subs_keys_nodup subs available allowSubs r.ingredients ⟨[], [], []⟩ List.nodup_nil

theorem viaSub_false (subs : List (String × List String)) (available : List String)
    (key : String) : viaSub subs available false key = none := by
  unfold viaSub
  split
  · rfl
  · rfl

theorem find?_append_first {α : Type} (p : α → Bool) (pre : List α) (alt : α) (post : List α)
    (hpre : ∀ a ∈ pre, p a = false) (halt : p alt = true) :
    (pre ++ alt :: post).find? p = some alt := by
  induction pre with
  | nil => simpa [List.find?_cons] using List.find?_cons_of_pos post halt
  | cons b pre ih =>
    rw [List.cons_append, List.find?_cons_of_neg]
    · exact ih fun a ha => hpre a (List.mem_cons_of_mem b ha)
    · simp [hpre b (List.mem_cons_self b pre)]

/-- C2: for every recipe, availability set and either substitution switch, the
missing and covered sets of the coverage resolver are disjoint, their union is
exactly the set of distinct normalized required ingredients of the recipe, and
every key of substitutions_used lies in covered. -/
theorem coverage_partition (subs : List (String × List String)) (r : Recipe)
    (available : List String) (allowSubs : Bool) :
    (∀ x, ¬ (x ∈ (compute_missing_and_subs subs r available allowSubs).missing ∧
        x ∈ (compute_missing_and_subs subs r available allowSubs).covered)) ∧
    (∀ x, (x ∈ (compute_missing_and_subs subs r available allowSubs).missing ∨
        x ∈ (compute_missing_and_subs subs r available allowSubs).covered) ↔
        x ∈ r.ingredients.map normalize) ∧
    (∀ k v, (k, v) ∈ (compute_missing_and_subs subs r available allowSubs).subs_used →
        k ∈ (compute_missing_and_subs subs r available allowSubs).covered) := by
  refine ⟨?_, ?_, ?_⟩
  · intro x ⟨hm, hc⟩
    rw [cms_missing_mem] at hm
    rw [cms_covered_mem] at hc
    exact hm.2 hc.2
  · intro x
    rw [cms_missing_mem, cms_covered_mem]
    constructor
    · rintro (⟨h, _⟩ | ⟨h, _⟩) <;> exact h
    · intro h
      by_cases hk : keyCovered subs available allowSubs x
      · exact Or.inr ⟨h, hk⟩
      · exact Or.inl ⟨h, hk⟩
  · intro k v hkv
    have hkey : k ∈ (compute_missing_and_subs subs r available allowSubs).subs_used.map
        Prod.fst := List.mem_map_of_mem Prod.fst hkv
    rw [cms_subs_keys_mem] at hkey
    rw [cms_covered_mem]
    exact ⟨hkey.1, Or.inr hkey.2⟩

/-- C4: a directly available ingredient is covered with no substitution recorded;
an unavailable one with substitutions allowed is covered via the first alternative
of its table entry that is available, recorded in substitutions_used; otherwise it
is missing. -/
theorem coverage_per_ingredient (subs : List (String × List String)) (r : Recipe)
    (available : List String) (allowSubs : Bool) (ing : String)
    (hing : ing ∈ r.ingredients) :
    (normalize ing ∈ available →
      normalize ing ∈ (compute_missing_and_subs subs r available allowSubs).covered ∧
      normalize ing ∉
        (compute_missing_and_subs subs r available allowSubs).subs_used.map Prod.fst) ∧
    (∀ pre alt post, normalize ing ∉ available → allowSubs = true →
      subsGet subs (normalize ing) = pre ++ alt :: post →
      (∀ a ∈ pre, a ∉ available) → alt ∈ available →
      normalize ing ∈ (compute_missing_and_subs subs r available allowSubs).covered ∧
      alLookup (compute_missing_and_subs subs r available allowSubs).subs_used
        (normalize ing) = some alt) ∧
    (normalize ing ∉ available →
      (allowSubs = false ∨ firstAlt subs available (normalize ing) = none) →
      normalize ing ∈ (compute_missing_and_subs subs r available allowSubs).missing) := by
  have hmem : normalize ing ∈ r.ingredients.map normalize :=
    List.mem_map_of_mem normalize hing
  refine ⟨?_, ?_, ?_⟩
  · intro hav
    constructor
    · rw [cms_covered_mem]
      exact ⟨hmem, Or.inl hav⟩
    · rw [cms_subs_keys_mem]
      rintro ⟨_, hsome⟩
      unfold viaSub at hsome
      rw [if_pos hav] at hsome
      simp at hsome
  · intro pre alt post hav hallow htab hpre halt
    have hfa : firstAlt subs available (normalize ing) = some alt := by
      unfold firstAlt
      rw [htab]
      exact find?_append_first _ pre alt post
        (fun a ha => by simpa using hpre a ha) (by simpa using halt)
    have hvs : viaSub subs available allowSubs (normalize ing) = some alt := by
      unfold viaSub
      rw [if_neg hav, hallow, if_pos rfl]
      exact hfa
    constructor
    · rw [cms_covered_mem]
      exact ⟨hmem, Or.inr (by rw [hvs]; rfl)⟩
    · rw [cms_subs_lookup, if_pos ⟨hmem, by rw [hvs]; rfl⟩]
      exact hvs
  · intro hav hnone
    rw [cms_missing_mem]
    refine ⟨hmem, ?_⟩
    rintro (h | h)
    · exact hav h
    · unfold viaSub at h
      rw [if_neg hav] at h
      rcases hnone with rfl | hfa
      · simp at h
      · rcases allowSubs with _ | _
        · simp at h
        · rw [if_pos rfl, hfa] at h
          simp at h

/-- C4 witness: a concrete recipe needing x, table x to [a, b], both a and b
available: x is covered through a, the first listed alternative. -/
theorem coverage_per_ingredient_witness :
    ("x" ∈ (⟨"rx", "RX", ["x"], [], []⟩ : Recipe).ingredients) ∧
    ((compute_missing_and_subs [("x", ["a", "b"])] ⟨"rx", "RX", ["x"], [], []⟩
        ["a", "b"] true).subs_used = [("x", "a")]) ∧
    ((normalize "x" ∈ ["a", "b"] →
      normalize "x" ∈ (compute_missing_and_subs [("x", ["a", "b"])]
        ⟨"rx", "RX", ["x"], [], []⟩ ["a", "b"] true).covered ∧
      normalize "x" ∉ (compute_missing_and_subs [("x", ["a", "b"])]
        ⟨"rx", "RX", ["x"], [], []⟩ ["a", "b"] true).subs_used.map Prod.fst) ∧
    (∀ pre alt post, normalize "x" ∉ ["a", "b"] → true = true →
      subsGet [("x", ["a", "b"])] (normalize "x") = pre ++ alt :: post →
      (∀ a ∈ pre, a ∉ ["a", "b"]) → alt ∈ ["a", "b"] →
      normalize "x" ∈ (compute_missing_and_subs [("x", ["a", "b"])]
        ⟨"rx", "RX", ["x"], [], []⟩ ["a", "b"] true).covered ∧
      alLookup (compute_missing_and_subs [("x", ["a", "b"])]
        ⟨"rx", "RX", ["x"], [], []⟩ ["a", "b"] true).subs_used
        (normalize "x") = some alt) ∧
    (normalize "x" ∉ ["a", "b"] →
      (true = false ∨ firstAlt [("x", ["a", "b"])] ["a", "b"] (normalize "x") = none) →
      normalize "x" ∈ (compute_missing_and_subs [("x", ["a", "b"])]
        ⟨"rx", "RX", ["x"], [], []⟩ ["a", "b"] true).missing)) :=
  ⟨by decide, by decide,
    coverage_per_ingredient [("x", ["a", "b"])] ⟨"rx", "RX", ["x"], [], []⟩
      ["a", "b"] true "x" (by decide)⟩

/-- C5: for a fixed availability set, disabling substitutions only grows the
missing set and only shrinks the covered set, both as sets and in cardinality. -/
theorem substitution_monotonicity (subs : List (String × List String)) (r : Recipe)
    (available : List String) :
    (compute_missing_and_subs subs r available true).missing ⊆
      (compute_missing_and_subs subs r available false).missing ∧
    (compute_missing_and_subs subs r available false).covered ⊆
      (compute_missing_and_subs subs r available true).covered ∧
    (compute_missing_and_subs subs r available true).missing.length ≤
      (compute_missing_and_subs subs r available false).missing.length ∧
    (compute_missing_and_subs subs r available false).covered.length ≤
      (compute_missing_and_subs subs r available true).covered.length := by
  have hmiss : (compute_missing_and_subs subs r available true).missing ⊆
      (compute_missing_and_subs subs r available false).missing := by
    intro x hx
    rw [cms_missing_mem] at hx ⊢
    refine ⟨hx.1, ?_⟩
    rintro (h | h)
    · exact hx.2 (Or.inl h)
    · rw [viaSub_false] at h
      simp at h
  have hcov : (compute_missing_and_subs subs r available false).covered ⊆
      (compute_missing_and_subs subs r available true).covered := by
    intro x hx
    rw [cms_covered_mem] at hx ⊢
    refine ⟨hx.1, ?_⟩
    rcases hx.2 with h | h
    · exact Or.inl h
    · rw [viaSub_false] at h
      simp at h
  refine ⟨hmiss, hcov, ?_, ?_⟩
  · rw [← List.toFinset_card_of_nodup (cms_missing_nodup subs r available true),
      ← List.toFinset_card_of_nodup (cms_missing_nodup subs r available false)]
    exact Finset.card_le_card fun x hx =>
      List.mem_toFinset.2 (hmiss (List.mem_toFinset.1 hx))
  · rw [← List.toFinset_card_of_nodup (cms_covered_nodup subs r available false),
      ← List.toFinset_card_of_nodup (cms_covered_nodup subs r available true)]
    exact Finset.card_le_card fun x hx =>
      List.mem_toFinset.2 (hcov (List.mem_toFinset.1 hx))

/-- C6 counterexample: a catalog whose stored ingredient is "Eggs " (capital
letter, trailing blank). get_all_ingredients returns the raw string, not its
normalization "eggs", so the output is not case-normalized or trimmed. -/
theorem get_all_ingredients_not_normalized :
    get_all_ingredients rawEngine = ["Eggs "] ∧
    normalize "Eggs " = "eggs" ∧
    "eggs" ∉ get_all_ingredients rawEngine ∧
    ("Eggs " : String) ≠ "eggs" := by
  refine ⟨by decide, by decide, by decide, by decide⟩

theorem mem_foldl_append (l : List Recipe) (x : String) :
    ∀ acc : List String,
      x ∈ l.foldl (fun acc r => acc ++ r.ingredients) acc ↔
        x ∈ acc ∨ ∃ r ∈ l, x ∈ r.ingredients := by
  induction l with
  | nil => simp
  | cons r l ih =>
    intro acc
    rw [List.foldl_cons, ih]
    simp only [List.mem_append, List.mem_cons]
    constructor
    · rintro ((h | h) | ⟨r', hr', hx⟩)
      · exact Or.inl h
      · exact Or.inr ⟨r, Or.inl rfl, h⟩
      · exact Or.inr ⟨r', Or.inr hr', hx⟩
    · rintro (h | ⟨r', (rfl | hr'), hx⟩)
      · exact Or.inl (Or.inl h)
      · exact Or.inl (Or.inr hx)
      · exact Or.inr ⟨r', hr', hx⟩

/-- C6 amended: get_all_ingredients returns the raw ingredient strings of the
catalog (no trimming, no lower-casing), deduplicated by exact string equality and
sorted in ascending string order. -/
theorem get_all_ingredients_raw_sorted (e : Engine) :
    (get_all_ingredients e).Sorted strLe ∧
    (get_all_ingredients e).Nodup ∧
    (∀ x, x ∈ get_all_ingredients e ↔ ∃ r ∈ e.recipes, x ∈ r.ingredients) := by
  refine ⟨sortStr_sorted _, nodup_sortStr (List.nodup_dedup _), ?_⟩
  intro x
  rw [get_all_ingredients, mem_sortStr, List.mem_dedup, mem_foldl_append]
  simp

theorem planMissing_aux_nodup (ds : List (String × Details)) :
    ∀ s : List String, s.Nodup →
      (ds.foldl (fun s p => setUnion s p.2.missing) s).Nodup := by
  induction ds with
  | nil => exact fun s h => h
  | cons p ds ih => exact fun s h => ih _ (nodup_setUnion h)

theorem planMissing_nodup (ds : List (String × Details)) : (planMissing ds).Nodup :=
  planMissing_aux_nodup ds [] List.nodup_nil

theorem planCovered_aux_nodup (ds : List (String × Details)) :
    ∀ s : List String, s.Nodup →
      (ds.foldl (fun s p => setUnion s p.2.covered) s).Nodup := by
  induction ds with
  | nil => exact fun s h => h
  | cons p ds ih => exact fun s h => ih _ (nodup_setUnion h)

theorem planCovered_nodup (ds : List (String × Details)) : (planCovered ds).Nodup :=
  planCovered_aux_nodup ds [] List.nodup_nil

theorem planSubs_aux_keys_nodup (ds : List (String × Details)) :
    ∀ d : List (String × String), (d.map Prod.fst).Nodup →
      ((ds.foldl (fun d p => alUpdate d p.2.subs) d).map Prod.fst).Nodup := by
  induction ds with
  | nil => exact fun d h => h
  | cons p ds ih => exact fun d h => ih _ (nodup_keys_alUpdate _ _ h)

theorem planSubs_keys_nodup (ds : List (String × Details)) :
    ((planSubs ds).map Prod.fst).Nodup :=
  planSubs_aux_keys_nodup ds [] List.nodup_nil

/-- C9: interpreted over the rationals through the fixed scaling by 10 that keeps
scores integral, the single-recipe score is covered minus (missing plus 0.2 times
substitutions), the plan score is covered minus 1.5 times missing minus 0.2 times
substitutions, and all counts are counts of distinct names: the single-recipe
score is invariant under duplication of its inputs, and the aggregated plan sets
are duplicate-free, so their lengths are distinct counts. -/
theorem score_formulas (c m : List String) (s : List (String × String))
    (ds : List (String × Details)) :
    ((score_recipe c m s : ℚ)) =
      10 * ((c.dedup.length : ℚ) - ((m.dedup.length : ℚ) + (0.2 : ℚ) * (s.length : ℚ))) ∧
    score_recipe c m s = score_recipe c.dedup m.dedup s ∧
    ((score_plan (planCovered ds) (planMissing ds) (planSubs ds) : ℚ)) =
      10 * (((planCovered ds).dedup.length : ℚ) -
        (1.5 : ℚ) * ((planMissing ds).dedup.length : ℚ) -
        (0.2 : ℚ) * (((planSubs ds).map Prod.fst).dedup.length : ℚ)) ∧
    (planMissing ds).Nodup ∧ (planCovered ds).Nodup ∧
    ((planSubs ds).map Prod.fst).Nodup := by
  refine ⟨?_, ?_, ?_, planMissing_nodup ds, planCovered_nodup ds, planSubs_keys_nodup ds⟩
  · unfold score_recipe
    push_cast
    ring
  · unfold score_recipe
    simp only [List.dedup_idem]
  · unfold score_plan
    rw [List.dedup_eq_self.2 (planMissing_nodup ds),
      List.dedup_eq_self.2 (planCovered_nodup ds),
      List.dedup_eq_self.2 (planSubs_keys_nodup ds), List.length_map]
    push_cast
    ring

/-! Stage-1 shortlist lemmas. -/

theorem greedyScores_mem (e : Engine) (req : SuggestionRequest) (c : Cand) :
    c ∈ greedyScores e req ↔ ∃ r ∈ e.recipes,
      ((compute_missing_and_subs e.substitutions r (availOf req)
        req.allow_substitutions).missing.length : Int) ≤ req.max_missing ∧
      c = candOf e req r := by
  rw [greedyScores, List.mem_filterMap]
  constructor
  · rintro ⟨r, hr, hf⟩
    by_cases hc : ((compute_missing_and_subs e.substitutions r (availOf req)
        req.allow_substitutions).missing.length : Int) ≤ req.max_missing
    · rw [if_pos hc] at hf
      exact ⟨r, hr, hc, (Option.some.inj hf).symm⟩
    · rw [if_neg hc] at hf
      cases hf
  · rintro ⟨r, hr, hc, rfl⟩
    exact ⟨r, hr, by rw [if_pos hc]⟩

theorem candLE_total (e : Engine) (req : SuggestionRequest) (a b : Cand) :
    candLE e req a b ∨ candLE e req b a := by
  unfold candLE
  by_cases hp : req.prioritize_min_missing
  · rw [if_pos hp, if_pos hp]
    omega
  · rw [if_neg hp, if_neg hp]
    omega

theorem candLE_trans (e : Engine) (req : SuggestionRequest) {a b c : Cand}
    (hab : candLE e req a b) (hbc : candLE e req b c) : candLE e req a c := by
  unfold candLE at hab hbc ⊢
  by_cases hp : req.prioritize_min_missing
  · rw [if_pos hp] at hab hbc ⊢
    omega
  · rw [if_neg hp] at hab hbc ⊢
    omega

theorem sorted_shortlist (e : Engine) (req : SuggestionRequest) :
    ((greedyScores e req).insertionSort (candLE e req)).Sorted (candLE e req) := by
  haveI : IsTotal Cand (candLE e req) := ⟨candLE_total e req⟩
  haveI : IsTrans Cand (candLE e req) := ⟨fun _ _ _ => candLE_trans e req⟩
  exact List.sorted_insertionSort (candLE e req) (greedyScores e req)

theorem topCandidates_mem (e : Engine) (req : SuggestionRequest) {c : Cand}
    (hc : c ∈ topCandidates e req) : ∃ r ∈ e.recipes,
      ((compute_missing_and_subs e.substitutions r (availOf req)
        req.allow_substitutions).missing.length : Int) ≤ req.max_missing ∧
      c = candOf e req r := by
  have h1 : c ∈ (greedyScores e req).insertionSort (candLE e req) :=
    List.take_subset _ _ hc
  have h2 : c ∈ greedyScores e req :=
    (List.perm_insertionSort (candLE e req) (greedyScores e req)).subset h1
  exact (greedyScores_mem e req c).1 h2

theorem topCandidates_good (e : Engine) (req : SuggestionRequest) {c : Cand}
    (hc : c ∈ topCandidates e req) :
    (c.2.2.missing.length : Int) ≤ req.max_missing ∧
    c.2.2.missing.Nodup ∧ c.2.2.covered.Nodup ∧ (c.2.2.subs.map Prod.fst).Nodup := by
  obtain ⟨r, _, hbound, rfl⟩ := topCandidates_mem e req hc
  unfold candOf
  refine ⟨?_, ?_, ?_, ?_⟩
  · simpa [length_sortStr] using hbound
  · exact nodup_sortStr (cms_missing_nodup _ _ _ _)
  · exact nodup_sortStr (cms_covered_nodup _ _ _ _)
  · exact cms_subs_keys_nodup _ _ _ _

/-- C7: the stage-1 shortlist is the filtered candidate list (exactly the recipes
whose missing count is within max_missing), sorted by the published key (ascending
ingredient count then descending score when prioritize_min_missing is set,
descending score otherwise) and truncated to max(25, max_suggestions * 3). -/
theorem shortlist_characterization (e : Engine) (req : SuggestionRequest) :
    topCandidates e req =
      ((greedyScores e req).insertionSort (candLE e req)).take
        (max 25 (req.max_suggestions * 3)) ∧
    ((greedyScores e req).insertionSort (candLE e req)).Perm (greedyScores e req) ∧
    ((greedyScores e req).insertionSort (candLE e req)).Sorted (candLE e req) ∧
    (∀ c, c ∈ greedyScores e req ↔ ∃ r ∈ e.recipes,
      ((compute_missing_and_subs e.substitutions r (availOf req)
        req.allow_substitutions).missing.length : Int) ≤ req.max_missing ∧
      c = candOf e req r) ∧
    (∀ a b : Cand, candLE e req a b ↔
      if req.prioritize_min_missing then
        ingCount e a.1 < ingCount e b.1 ∨
          (ingCount e a.1 = ingCount e b.1 ∧ b.2.1 ≤ a.2.1)
      else b.2.1 ≤ a.2.1) :=
  ⟨rfl, List.perm_insertionSort _ _, sorted_shortlist e req,
    greedyScores_mem e req, fun _ _ => Iff.rfl⟩

/-! Gap analyzer lemmas. -/

theorem alLookup_map_pair {β : Type} (f : String → β) :
    ∀ (l : List String) (x : String),
      alLookup (l.map (fun m => (m, f m))) x = if x ∈ l then some (f x) else none := by
  intro l
  induction l with
  | nil => simp [alLookup]
  | cons a l ih =>
    intro x
    simp only [List.map_cons, alLookup]
    by_cases hax : a = x
    · rw [if_pos hax, if_pos (hax ▸ List.mem_cons_self a l), hax]
    · rw [if_neg hax, ih]
      by_cases hx : x ∈ l
      · rw [if_pos hx, if_pos (List.mem_cons_of_mem a hx)]
      · rw [if_neg hx, if_neg]
        rintro h
        rcases List.mem_cons.1 h with rfl | h
        · exact hax rfl
        · exact hx h

theorem analyze_gaps_foldl (e : Engine) (avail : List String) :
    ∀ (ids : List String) (acc : List (String × GapEntry)) (rid : String),
      alLookup (ids.foldl (fun gaps rid =>
        match findRecipe e rid with
        | none => gaps
        | some r => alInsert gaps rid (mkGapEntry e r avail)) acc) rid =
      match findRecipe e rid with
      | some r => if rid ∈ ids then some (mkGapEntry e r avail) else alLookup acc rid
      | none => alLookup acc rid := by
  intro ids
  induction ids with
  | nil =>
    intro acc rid
    cases findRecipe e rid <;> simp
  | cons id0 ids ih =>
    intro acc rid
    rw [List.foldl_cons, ih]
    cases hfr : findRecipe e rid with
    | none =>
      cases hf0 : findRecipe e id0 with
      | none => rfl
      | some r0 =>
        have hne : id0 ≠ rid := by
          rintro rfl
          rw [hfr] at hf0
          cases hf0
        exact alLookup_alInsert_ne acc id0 rid (mkGapEntry e r0 avail) hne
    | some r =>
      dsimp only
      by_cases hin : rid ∈ ids
      · rw [if_pos hin, if_pos (List.mem_cons_of_mem id0 hin)]
      · rw [if_neg hin]
        by_cases heq : rid = id0
        · have hm : rid ∈ id0 :: ids := by
            rw [heq]
            exact List.mem_cons_self id0 ids
          have hf0 : findRecipe e id0 = some r := by
            rw [← heq]
            exact hfr
          rw [if_pos hm, hf0]
          dsimp only
          rw [heq]
          exact alLookup_alInsert_self acc id0 (mkGapEntry e r avail)
        · have hnin : rid ∉ id0 :: ids := by
            intro h
            rcases List.mem_cons.1 h with h1 | h1
            · exact heq h1
            · exact hin h1
          rw [if_neg hnin]
          cases hf0 : findRecipe e id0 with
          | none => rfl
          | some r0 =>
            dsimp only
            exact alLookup_alInsert_ne acc id0 rid _ (fun h => heq h.symm)

/-- C8: gap analysis answers exactly the requested identifiers that exist in the
catalog (unknown ones are skipped silently), each entry computed with
substitutions always allowed, carrying the recipe title, the sorted missing and
covered lists, and the full unfiltered substitution-candidate list for every
missing ingredient (empty when the table has no entry). -/
theorem analyze_gaps_characterization (e : Engine) (ids avail : List String)
    (rid : String) :
    ((alLookup (analyze_gaps e ids avail) rid).isSome = true ↔
      rid ∈ ids ∧ (findRecipe e rid).isSome = true) ∧
    (∀ r, findRecipe e rid = some r → rid ∈ ids →
      alLookup (analyze_gaps e ids avail) rid =
        some (mkGapEntry e r (avail.map normalize))) ∧
    (∀ r : Recipe,
      (mkGapEntry e r (avail.map normalize)).title = r.title ∧
      (mkGapEntry e r (avail.map normalize)).missing.Sorted strLe ∧
      (mkGapEntry e r (avail.map normalize)).missing.Perm
        (compute_missing_and_subs e.substitutions r (avail.map normalize) true).missing ∧
      (mkGapEntry e r (avail.map normalize)).covered.Sorted strLe ∧
      (mkGapEntry e r (avail.map normalize)).covered.Perm
        (compute_missing_and_subs e.substitutions r (avail.map normalize) true).covered ∧
      (∀ msub ∈ (compute_missing_and_subs e.substitutions r
          (avail.map normalize) true).missing,
        alLookup (mkGapEntry e r (avail.map normalize)).substitution_candidates msub =
          some (subsGet e.substitutions msub))) ∧
    (∀ m, m ∉ e.substitutions.map Prod.fst → subsGet e.substitutions m = []) := by
  have hmain := analyze_gaps_foldl e (avail.map normalize) ids [] rid
  refine ⟨?_, ?_, ?_, ?_⟩
  · rw [analyze_gaps, hmain]
    cases hfr : findRecipe e rid with
    | none => simp [alLookup]
    | some r =>
      by_cases hin : rid ∈ ids
      · simp [hin]
      · simp [hin, alLookup]
  · intro r hr hin
    rw [analyze_gaps, hmain, hr]
    dsimp only
    rw [if_pos hin]
  · intro r
    refine ⟨rfl, sortStr_sorted _, sortStr_perm _, sortStr_sorted _, sortStr_perm _, ?_⟩
    intro msub hmsub
    show alLookup ((compute_missing_and_subs e.substitutions r
      (avail.map normalize) true).missing.map
        (fun m => (m, subsGet e.substitutions m))) msub = _
    rw [alLookup_map_pair, if_pos hmsub]
  · intro m hm
    unfold subsGet
    rw [List.find?_eq_none.2]
    intro p hp
    simp only [beq_iff_eq, decide_eq_true_eq]
    rintro rfl
    exact hm (List.mem_map_of_mem Prod.fst hp)

/-! Backtracking search lemmas. -/

theorem btLoop_nil (e : Engine) (req : SuggestionRequest) (chosen : List Cand)
    (used : List String) (st : BTState) : btLoop e req chosen [] used st = st := rfl

theorem btLoop_cons (e : Engine) (req : SuggestionRequest) (chosen : List Cand)
    (c : Cand) (rs : List Cand) (used : List String) (st : BTState) :
    btLoop e req chosen (c :: rs) used st =
      if ((c.2.2.missing.dedup.filter (fun x => decide (x ∉ used))).length : Int) >
          req.max_missing then
        btLoop e req chosen rs used st
      else
        btLoop e req chosen rs used
          (btStep e req (chosen ++ [c]) rs (used ++ c.2.2.covered) st) := rfl

theorem evalPlan_budget (req : SuggestionRequest) (chosen : List Cand) (st : BTState)
    (hch : ∀ c ∈ chosen, (c.2.2.missing.length : Int) ≤ req.max_missing)
    (h1 : ∀ p ∈ st.best_details, (p.2.missing.length : Int) ≤ req.max_missing)
    (h2 : st.best_plan ≠ [] →
      ((planMissing st.best_details).length : Int) ≤ req.max_missing) :
    (∀ p ∈ (evalPlan req chosen st).best_details,
      (p.2.missing.length : Int) ≤ req.max_missing) ∧
    ((evalPlan req chosen st).best_plan ≠ [] →
      ((planMissing (evalPlan req chosen st).best_details).length : Int) ≤
        req.max_missing) := by
  unfold evalPlan
  split
  · next hguard =>
    split
    · constructor
      · intro p hp
        rcases List.mem_map.1 hp with ⟨c, hc, rfl⟩
        exact hch c hc
      · intro _
        exact hguard
    · exact ⟨h1, h2⟩
  · exact ⟨h1, h2⟩

theorem btLoop_budget (e : Engine) (req : SuggestionRequest) :
    ∀ (rest chosen : List Cand) (used : List String) (st : BTState),
      (∀ c ∈ rest, (c.2.2.missing.length : Int) ≤ req.max_missing) →
      (∀ c ∈ chosen, (c.2.2.missing.length : Int) ≤ req.max_missing) →
      (∀ p ∈ st.best_details, (p.2.missing.length : Int) ≤ req.max_missing) →
      (st.best_plan ≠ [] →
        ((planMissing st.best_details).length : Int) ≤ req.max_missing) →
      (∀ p ∈ (btLoop e req chosen rest used st).best_details,
        (p.2.missing.length : Int) ≤ req.max_missing) ∧
      ((btLoop e req chosen rest used st).best_plan ≠ [] →
        ((planMissing (btLoop e req chosen rest used st).best_details).length : Int) ≤
          req.max_missing) := by
  intro rest
  induction rest with
  | nil =>
    intro chosen used st _ _ h1 h2
    rw [btLoop_nil]
    exact ⟨h1, h2⟩
  | cons c rs ih =>
    intro chosen used st hrest hch h1 h2
    have hrest' : ∀ d ∈ rs, (d.2.2.missing.length : Int) ≤ req.max_missing :=
      fun d hd => hrest d (List.mem_cons_of_mem c hd)
    rw [btLoop_cons]
    split
    · exact ih chosen used st hrest' hch h1 h2
    · have hch' : ∀ d ∈ chosen ++ [c],
          (d.2.2.missing.length : Int) ≤ req.max_missing := by
        intro d hd
        rcases List.mem_append.1 hd with hd | hd
        · exact hch d hd
        · rw [List.mem_singleton] at hd
          rw [hd]
          exact hrest c (List.mem_cons_self c rs)
      have hst' :
          (∀ p ∈ (btStep e req (chosen ++ [c]) rs (used ++ c.2.2.covered)
              st).best_details, (p.2.missing.length : Int) ≤ req.max_missing) ∧
          ((btStep e req (chosen ++ [c]) rs (used ++ c.2.2.covered)
              st).best_plan ≠ [] →
            ((planMissing (btStep e req (chosen ++ [c]) rs (used ++ c.2.2.covered)
              st).best_details).length : Int) ≤ req.max_missing) := by
        unfold btStep
        split
        · exact ⟨h1, h2⟩
        · have hev := evalPlan_budget req (chosen ++ [c]) st hch' h1 h2
          split
          · exact hev
          · exact ih (chosen ++ [c]) (used ++ c.2.2.covered) _ hrest' hch' hev.1 hev.2
      exact ih chosen used _ hrest' hch hst'.1 hst'.2

theorem btRun_budget (e : Engine) (req : SuggestionRequest) :
    (∀ p ∈ (btRun e req).best_details,
      (p.2.missing.length : Int) ≤ req.max_missing) ∧
    ((btRun e req).best_plan ≠ [] →
      ((planMissing (btRun e req).best_details).length : Int) ≤ req.max_missing) := by
  have hbound : ∀ c ∈ topCandidates e req,
      (c.2.2.missing.length : Int) ≤ req.max_missing :=
    fun c hc => (topCandidates_good e req hc).1
  have hinit1 : ∀ p ∈ (⟨[], none, []⟩ : BTState).best_details,
      (p.2.missing.length : Int) ≤ req.max_missing := by
    intro p hp
    cases hp
  have hinit2 : (⟨[], none, []⟩ : BTState).best_plan ≠ [] →
      ((planMissing (⟨[], none, []⟩ : BTState).best_details).length : Int) ≤
        req.max_missing := by
    intro h
    cases h rfl
  unfold btRun btStep
  split
  · exact ⟨hinit1, hinit2⟩
  · have hev := evalPlan_budget req [] ⟨[], none, []⟩ (by intro c hc; cases hc)
      hinit1 hinit2
    split
    · exact hev
    · exact btLoop_budget e req (topCandidates e req) [] [] _
        hbound (by intro c hc; cases hc) hev.1 hev.2

theorem assemble_missing {e : Engine} {details : List (String × Details)}
    {rid : String} {s : Suggestion} (h : assemble e details rid = some s) :
    s.missing = [] ∨ ∃ p ∈ details, s.missing = p.2.missing := by
  unfold assemble at h
  cases hfr : findRecipe e rid with
  | none =>
    rw [hfr] at h
    cases h
  | some r =>
    rw [hfr] at h
    cases hlook : alLookup details rid with
    | none =>
      rw [hlook] at h
      obtain rfl := Option.some.inj h
      exact Or.inl rfl
    | some det =>
      rw [hlook] at h
      obtain rfl := Option.some.inj h
      exact Or.inr ⟨(rid, det), alLookup_mem hlook, rfl⟩

/-- C1: with a non-negative budget, every suggestion record returned carries a
per-recipe missing list of length at most max_missing, and whenever the search
records a non-empty best plan its aggregated distinct missing set is within
max_missing. -/
theorem suggest_respects_missing_budget (e : Engine) (req : SuggestionRequest)
    (h : 0 ≤ req.max_missing) :
    (∀ s ∈ (suggest_recipes e req).suggestions,
      (s.missing.length : Int) ≤ req.max_missing) ∧
    ((btRun e req).best_plan ≠ [] →
      ((planMissing (btRun e req).best_details).length : Int) ≤ req.max_missing) := by
  have hinv := btRun_budget e req
  refine ⟨?_, hinv.2⟩
  intro s hs
  have hdet : s.missing = [] ∨
      (∃ p ∈ detailsOf ((topCandidates e req).take req.max_suggestions),
        s.missing = p.2.missing) ∨
      (∃ p ∈ (btRun e req).best_details, s.missing = p.2.missing) := by
    rw [suggest_recipes] at hs
    by_cases hplan : (btRun e req).best_plan = []
    · rw [if_pos hplan] at hs
      rw [fallbackSuggestions] at hs
      rcases List.mem_filterMap.1 hs with ⟨rid, _, hass⟩
      rcases assemble_missing hass with hm | hm
      · exact Or.inl hm
      · exact Or.inr (Or.inl hm)
    · rw [if_neg hplan] at hs
      rcases List.mem_filterMap.1 hs with ⟨rid, _, hass⟩
      rcases assemble_missing hass with hm | hm
      · exact Or.inl hm
      · exact Or.inr (Or.inr hm)
  rcases hdet with hm | ⟨p, hp, hm⟩ | ⟨p, hp, hm⟩
  · rw [hm]
    simpa using h
  · rw [hm]
    rcases List.mem_map.1 hp with ⟨c, hc, rfl⟩
    exact (topCandidates_good e req (List.take_subset _ _ hc)).1
  · rw [hm]
    exact hinv.1 p hp

/-- C1 witness: the spec end-to-end catalog with budget 1, where the returned
suggestion has no missing ingredients at all. -/
theorem suggest_respects_missing_budget_witness :
    ((∀ s ∈ (suggest_recipes egEngine egRequest).suggestions,
      (s.missing.length : Int) ≤ egRequest.max_missing) ∧
    ((btRun egEngine egRequest).best_plan ≠ [] →
      ((planMissing (btRun egEngine egRequest).best_details).length : Int) ≤
        egRequest.max_missing)) ∧
    (suggest_recipes egEngine egRequest).suggestions.map (fun s => s.missing) = [[]] :=
  ⟨suggest_respects_missing_budget egEngine egRequest (by decide), by decide⟩

theorem evalPlan_root (req : SuggestionRequest) (h : 0 ≤ req.max_missing) :
    evalPlan req [] ⟨[], none, []⟩ = ⟨[], some 0, []⟩ := by
  have hg : ((planMissing (detailsOf ([] : List Cand))).length : Int) ≤
      req.max_missing := by
    simpa using h
  have hs : planScoreOf ([] : List Cand) = 0 := by decide
  unfold evalPlan
  rw [if_pos hg, if_pos]
  · rw [hs]
    rfl
  · rfl

theorem evalPlan_pos (req : SuggestionRequest) (T chosen : List Cand) (st : BTState)
    (hsub : chosen.Sublist T)
    (hscore : ∃ b, st.best_score = some b ∧ 0 ≤ b)
    (hex : st.best_plan ≠ [] → ∃ ch, ch.Sublist T ∧ ch ≠ [] ∧
      ((planMissing (detailsOf ch)).length : Int) ≤ req.max_missing ∧
      0 < planScoreOf ch) :
    (∃ b, (evalPlan req chosen st).best_score = some b ∧ 0 ≤ b) ∧
    ((evalPlan req chosen st).best_plan ≠ [] → ∃ ch, ch.Sublist T ∧ ch ≠ [] ∧
      ((planMissing (detailsOf ch)).length : Int) ≤ req.max_missing ∧
      0 < planScoreOf ch) := by
  unfold evalPlan
  split
  · next hguard =>
    split
    · next hbeats =>
      obtain ⟨b, hb, hb0⟩ := hscore
      rw [hb] at hbeats
      have hlt : b < planScoreOf chosen := by simpa [beats] using hbeats
      have hpos : 0 < planScoreOf chosen := lt_of_le_of_lt hb0 hlt
      constructor
      · exact ⟨planScoreOf chosen, rfl, le_of_lt hpos⟩
      · intro hne
        have hch : chosen ≠ [] := by
          rintro rfl
          simp at hne
        exact ⟨chosen, hsub, hch, hguard, hpos⟩
    · exact ⟨hscore, hex⟩
  · exact ⟨hscore, hex⟩

theorem btLoop_pos (e : Engine) (req : SuggestionRequest) (T : List Cand) :
    ∀ (rest chosen : List Cand) (used : List String) (st : BTState),
      (chosen ++ rest).Sublist T →
      (∃ b, st.best_score = some b ∧ 0 ≤ b) →
      (st.best_plan ≠ [] → ∃ ch, ch.Sublist T ∧ ch ≠ [] ∧
        ((planMissing (detailsOf ch)).length : Int) ≤ req.max_missing ∧
        0 < planScoreOf ch) →
      (∃ b, (btLoop e req chosen rest used st).best_score = some b ∧ 0 ≤ b) ∧
      ((btLoop e req chosen rest used st).best_plan ≠ [] →
        ∃ ch, ch.Sublist T ∧ ch ≠ [] ∧
          ((planMissing (detailsOf ch)).length : Int) ≤ req.max_missing ∧
          0 < planScoreOf ch) := by
  intro rest
  induction rest with
  | nil =>
    intro chosen used st _ hscore hex
    rw [btLoop_nil]
    exact ⟨hscore, hex⟩
  | cons c rs ih =>
    intro chosen used st hsub hscore hex
    have hsub1 : (chosen ++ rs).Sublist T :=
      ((List.sublist_cons_self c rs).append_left chosen).trans hsub
    have hsubc : (chosen ++ [c]).Sublist T :=
      ((List.cons_sublist_cons.2 (List.nil_sublist rs)).append_left chosen).trans hsub
    have hsubc2 : ((chosen ++ [c]) ++ rs).Sublist T := by
      have he : (chosen ++ [c]) ++ rs = chosen ++ c :: rs := by simp
      rw [he]
      exact hsub
    rw [btLoop_cons]
    split
    · exact ih chosen used st hsub1 hscore hex
    · have hst' :
          (∃ b, (btStep e req (chosen ++ [c]) rs (used ++ c.2.2.covered)
            st).best_score = some b ∧ 0 ≤ b) ∧
          ((btStep e req (chosen ++ [c]) rs (used ++ c.2.2.covered)
              st).best_plan ≠ [] →
            ∃ ch, ch.Sublist T ∧ ch ≠ [] ∧
              ((planMissing (detailsOf ch)).length : Int) ≤ req.max_missing ∧
              0 < planScoreOf ch) := by
        unfold btStep
        split
        · exact ⟨hscore, hex⟩
        · have hev := evalPlan_pos req T (chosen ++ [c]) st hsubc hscore
            (fun hne => hex hne)
          split
          · exact hev
          · exact ih (chosen ++ [c]) (used ++ c.2.2.covered) _ hsubc2 hev.1 hev.2
      exact ih chosen used _ hsub1 hst'.1 hst'.2

theorem btRun_pos (e : Engine) (req : SuggestionRequest) (h : 0 ≤ req.max_missing) :
    (∃ b, (btRun e req).best_score = some b ∧ 0 ≤ b) ∧
    ((btRun e req).best_plan ≠ [] →
      ∃ ch, ch.Sublist (topCandidates e req) ∧ ch ≠ [] ∧
        ((planMissing (detailsOf ch)).length : Int) ≤ req.max_missing ∧
        0 < planScoreOf ch) := by
  unfold btRun btStep
  rw [if_neg (by simp), evalPlan_root req h]
  split
  · exact ⟨⟨0, rfl, le_refl 0⟩, fun hne => absurd rfl hne⟩
  · exact btLoop_pos e req (topCandidates e req) (topCandidates e req) [] []
      ⟨[], some 0, []⟩ (by simpa using List.Sublist.refl (topCandidates e req))
      ⟨0, rfl, le_refl 0⟩ (fun hne => absurd rfl hne)

theorem evalPlan_zero (req : SuggestionRequest) (T chosen : List Cand)
    (H : ∀ ch, ch.Sublist T → ch ≠ [] →
      ((planMissing (detailsOf ch)).length : Int) ≤ req.max_missing →
      planScoreOf ch ≤ 0)
    (hsub : chosen.Sublist T) :
    evalPlan req chosen ⟨[], some 0, []⟩ = ⟨[], some 0, []⟩ := by
  unfold evalPlan
  split
  · next hguard =>
    split
    · next hbeats =>
      exfalso
      have hlt : (0 : Int) < planScoreOf chosen := by simpa [beats] using hbeats
      by_cases hch : chosen = []
      · rw [hch] at hlt
        have hz : planScoreOf ([] : List Cand) = 0 := by decide
        rw [hz] at hlt
        exact lt_irrefl 0 hlt
      · exact absurd hlt (not_lt.2 (H chosen hsub hch hguard))
    · rfl
  · rfl

theorem btLoop_zero (e : Engine) (req : SuggestionRequest) (T : List Cand)
    (H : ∀ ch, ch.Sublist T → ch ≠ [] →
      ((planMissing (detailsOf ch)).length : Int) ≤ req.max_missing →
      planScoreOf ch ≤ 0) :
    ∀ (rest chosen : List Cand) (used : List String),
      (chosen ++ rest).Sublist T →
      btLoop e req chosen rest used ⟨[], some 0, []⟩ = ⟨[], some 0, []⟩ := by
  intro rest
  induction rest with
  | nil =>
    intro chosen used _
    rw [btLoop_nil]
  | cons c rs ih =>
    intro chosen used hsub
    have hsub1 : (chosen ++ rs).Sublist T :=
      ((List.sublist_cons_self c rs).append_left chosen).trans hsub
    have hsubc : (chosen ++ [c]).Sublist T :=
      ((List.cons_sublist_cons.2 (List.nil_sublist rs)).append_left chosen).trans hsub
    have hsubc2 : ((chosen ++ [c]) ++ rs).Sublist T := by
      have he : (chosen ++ [c]) ++ rs = chosen ++ c :: rs := by simp
      rw [he]
      exact hsub
    rw [btLoop_cons]
    split
    · exact ih chosen used hsub1
    · have hst' : btStep e req (chosen ++ [c]) rs (used ++ c.2.2.covered)
          ⟨[], some 0, []⟩ = ⟨[], some 0, []⟩ := by
        unfold btStep
        split
        · rfl
        · rw [evalPlan_zero req T (chosen ++ [c]) H hsubc]
          split
          · rfl
          · exact ih (chosen ++ [c]) (used ++ c.2.2.covered) hsubc2
      rw [hst']
      exact ih chosen used hsub1

theorem btRun_zero (e : Engine) (req : SuggestionRequest) (h : 0 ≤ req.max_missing)
    (H : ∀ ch, ch.Sublist (topCandidates e req) → ch ≠ [] →
      ((planMissing (detailsOf ch)).length : Int) ≤ req.max_missing →
      planScoreOf ch ≤ 0) :
    btRun e req = ⟨[], some 0, []⟩ := by
  unfold btRun btStep
  rw [if_neg (by simp), evalPlan_root req h]
  split
  · rfl
  · exact btLoop_zero e req (topCandidates e req) H (topCandidates e req) [] []
      (by simpa using List.Sublist.refl (topCandidates e req))

/-- C10: the empty plan is evaluated first (it is within any non-negative budget
and scores 0), so a search plan is returned only when some qualifying non-empty
subset of the shortlist has strictly positive plan score; when every qualifying
non-empty subset scores at most 0, the best plan stays empty and the stage-3
fallback to the shortlist prefix is taken. -/
theorem backtrack_zero_score_barrier (e : Engine) (req : SuggestionRequest)
    (h : 0 ≤ req.max_missing) :
    ((btRun e req).best_plan ≠ [] →
      ∃ ch, ch.Sublist (topCandidates e req) ∧ ch ≠ [] ∧
        ((planMissing (detailsOf ch)).length : Int) ≤ req.max_missing ∧
        0 < planScoreOf ch) ∧
    ((∀ ch, ch.Sublist (topCandidates e req) → ch ≠ [] →
        ((planMissing (detailsOf ch)).length : Int) ≤ req.max_missing →
        planScoreOf ch ≤ 0) →
      (btRun e req).best_plan = [] ∧
      (suggest_recipes e req).suggestions = fallbackSuggestions e req) := by
  constructor
  · exact (btRun_pos e req h).2
  · intro H
    have hz := btRun_zero e req h H
    have hp : (btRun e req).best_plan = [] := by rw [hz]
    exact ⟨hp, by simp [suggest_recipes, hp]⟩

/-- C10 witness: a catalog whose only recipe misses its single ingredient, budget
3: the one-recipe plan qualifies (1 missing) but scores -1.5, so the search keeps
the empty plan and the response comes from the fallback shortlist prefix. -/
theorem backtrack_zero_score_barrier_witness :
    (((btRun poorEngine poorRequest).best_plan ≠ [] →
      ∃ ch, ch.Sublist (topCandidates poorEngine poorRequest) ∧ ch ≠ [] ∧
        ((planMissing (detailsOf ch)).length : Int) ≤ poorRequest.max_missing ∧
        0 < planScoreOf ch) ∧
    ((∀ ch, ch.Sublist (topCandidates poorEngine poorRequest) → ch ≠ [] →
        ((planMissing (detailsOf ch)).length : Int) ≤ poorRequest.max_missing →
        planScoreOf ch ≤ 0) →
      (btRun poorEngine poorRequest).best_plan = [] ∧
      (suggest_recipes poorEngine poorRequest).suggestions =
        fallbackSuggestions poorEngine poorRequest)) ∧
    (btRun poorEngine poorRequest).best_plan = [] ∧
    (suggest_recipes poorEngine poorRequest).suggestions.map (fun s => s.id) = ["p1"] :=
  ⟨backtrack_zero_score_barrier poorEngine poorRequest (by decide),
    by decide, by decide⟩

/-! Plan-size-1 characterization. -/

theorem evalPlan_single (req : SuggestionRequest) (c : Cand) (st : BTState)
    (hnodup : c.2.2.missing.Nodup)
    (hbound : (c.2.2.missing.length : Int) ≤ req.max_missing) :
    evalPlan req [c] st = bestSingleStep st c := by
  have hpm : planMissing (detailsOf [c]) = c.2.2.missing := by
    show setUnion [] c.2.2.missing = c.2.2.missing
    exact setUnion_nil_eq hnodup
  unfold evalPlan bestSingleStep
  rw [if_pos (show ((planMissing (detailsOf [c])).length : Int) ≤ req.max_missing by
    rw [hpm]; exact hbound)]
  rfl

theorem btLoop_plan_one (e : Engine) (req : SuggestionRequest)
    (h1 : req.plan_size = 1) :
    ∀ (rest : List Cand) (st : BTState),
      (∀ c ∈ rest, c.2.2.missing.Nodup ∧
        (c.2.2.missing.length : Int) ≤ req.max_missing) →
      btLoop e req [] rest [] st = rest.foldl bestSingleStep st := by
  intro rest
  induction rest with
  | nil =>
    intro st _
    rw [btLoop_nil]
    rfl
  | cons c rs ih =>
    intro st hgood
    have hc := hgood c (List.mem_cons_self c rs)
    rw [btLoop_cons]
    have hnoprune : ¬ (((c.2.2.missing.dedup.filter
        (fun x => decide (x ∉ ([] : List String)))).length : Int) > req.max_missing) := by
      have hd : c.2.2.missing.dedup = c.2.2.missing := List.dedup_eq_self.2 hc.1
      have hf : c.2.2.missing.filter (fun x => decide (x ∉ ([] : List String))) =
          c.2.2.missing := by
        apply List.filter_eq_self.2
        intro a _
        simp
      rw [hd, hf]
      omega
    rw [if_neg hnoprune]
    have hstep : btStep e req ([] ++ [c]) rs ([] ++ c.2.2.covered) st =
        evalPlan req [c] st := by
      unfold btStep
      rw [if_neg (by simp [h1]), if_pos (by simp [h1])]
      rfl
    rw [hstep, evalPlan_single req c st hc.1 hc.2, List.foldl_cons]
    exact ih _ (fun d hd => hgood d (List.mem_cons_of_mem c hd))

theorem btRun_plan_one (e : Engine) (req : SuggestionRequest)
    (h1 : req.plan_size = 1) (h : 0 ≤ req.max_missing) :
    btRun e req = (topCandidates e req).foldl bestSingleStep ⟨[], some 0, []⟩ := by
  unfold btRun btStep
  rw [if_neg (by simp), evalPlan_root req h, if_neg (by simp [h1])]
  exact btLoop_plan_one e req h1 (topCandidates e req) ⟨[], some 0, []⟩
    (fun c hc => ⟨(topCandidates_good e req hc).2.1, (topCandidates_good e req hc).1⟩)

theorem bestSingleInv_step (processed : List Cand) (st : BTState) (c : Cand)
    (h : bestSingleInv processed st) :
    bestSingleInv (processed ++ [c]) (bestSingleStep st c) := by
  rcases h with ⟨rfl, hall⟩ | ⟨pre, c', post, rfl, rfl, hpos, hmax, hpre⟩
  · unfold bestSingleStep
    by_cases hc : 0 < planScoreOf [c]
    · rw [if_pos (by simpa [beats] using hc)]
      refine Or.inr ⟨processed, c, [], rfl, rfl, hc, ?_, ?_⟩
      · intro d hd
        rcases List.mem_append.1 hd with hd | hd
        · exact le_trans (hall d hd) (le_of_lt hc)
        · rw [List.mem_singleton] at hd
          rw [hd]
      · intro d hd
        exact lt_of_le_of_lt (hall d hd) hc
    · rw [if_neg (by simpa [beats] using hc)]
      refine Or.inl ⟨rfl, ?_⟩
      intro d hd
      rcases List.mem_append.1 hd with hd | hd
      · exact hall d hd
      · rw [List.mem_singleton] at hd
        rw [hd]
        exact not_lt.1 hc
  · unfold bestSingleStep
    by_cases hc : planScoreOf [c'] < planScoreOf [c]
    · rw [if_pos (by simpa [beats] using hc)]
      refine Or.inr ⟨pre ++ c' :: post, c, [], rfl, rfl, lt_trans hpos hc, ?_, ?_⟩
      · intro d hd
        rcases List.mem_append.1 hd with hd | hd
        · exact le_trans (hmax d hd) (le_of_lt hc)
        · rw [List.mem_singleton] at hd
          rw [hd]
      · intro d hd
        exact lt_of_le_of_lt (hmax d hd) hc
    · rw [if_neg (by simpa [beats] using hc)]
      refine Or.inr ⟨pre, c', post ++ [c], by rw [List.append_assoc]; rfl, rfl, hpos,
        ?_, hpre⟩
      intro d hd
      rcases List.mem_append.1 hd with hd | hd
      · exact hmax d hd
      · rw [List.mem_singleton] at hd
        rw [hd]
        exact not_lt.1 hc

theorem bestSingleInv_fold (L : List Cand) :
    ∀ (processed : List Cand) (st : BTState),
      bestSingleInv processed st →
      bestSingleInv (processed ++ L) (L.foldl bestSingleStep st) := by
  induction L with
  | nil =>
    intro processed st h
    simpa using h
  | cons c L ih =>
    intro processed st h
    rw [List.foldl_cons]
    have h1 := ih (processed ++ [c]) (bestSingleStep st c) (bestSingleInv_step _ _ _ h)
    rw [List.append_assoc] at h1
    simpa using h1

theorem bestSingleInv_run (e : Engine) (req : SuggestionRequest) :
    bestSingleInv (topCandidates e req)
      ((topCandidates e req).foldl bestSingleStep ⟨[], some 0, []⟩) := by
  have h0 : bestSingleInv [] ⟨[], some 0, []⟩ := Or.inl ⟨rfl, by intro c hc; cases hc⟩
  simpa using bestSingleInv_fold (topCandidates e req) [] ⟨[], some 0, []⟩ h0

/-- C3 counterexample: catalog of two fully-covered one-ingredient recipes,
plan_size 1, max_suggestions 8. The shortlist prefix has both recipes, but
suggest_recipes returns only the single best-plan recipe, so the output does not
equal the first max_suggestions shortlist entries. -/
theorem plan_size_one_counterexample :
    cexRequest.plan_size = 1 ∧
    (suggest_recipes cexEngine cexRequest).suggestions.map (fun s => s.id) = ["a1"] ∧
    ((topCandidates cexEngine cexRequest).take cexRequest.max_suggestions).map
      (fun c => c.1) = ["a1", "a2"] ∧
    (suggest_recipes cexEngine cexRequest).suggestions.map (fun s => s.id) ≠
      ((topCandidates cexEngine cexRequest).take cexRequest.max_suggestions).map
        (fun c => c.1) :=
  ⟨rfl, by decide, by decide, by decide⟩

/-- C3 amended: with plan_size = 1 and a non-negative budget, the search is
single-recipe ranking of the shortlist by the plan score. If no shortlist entry
has positive plan score, the result is the stage-3 fallback, the first
max_suggestions shortlist entries; otherwise the result is the single suggestion
built from a shortlist entry attaining the maximal plan score (which is
positive), not the shortlist top-K. Which of several entries with exactly equal
maximal scores is selected is left unspecified: the program breaks such ties by
IEEE-double rounding of the score formula. -/
theorem plan_size_one_characterization (e : Engine) (req : SuggestionRequest)
    (h1 : req.plan_size = 1) (h : 0 ≤ req.max_missing) :
    ((∀ c ∈ topCandidates e req, planScoreOf [c] ≤ 0) →
      (btRun e req).best_plan = [] ∧
      (suggest_recipes e req).suggestions = fallbackSuggestions e req) ∧
    (∀ c0 ∈ topCandidates e req, 0 < planScoreOf [c0] →
      ∃ c' ∈ topCandidates e req, 0 < planScoreOf [c'] ∧
        (∀ d ∈ topCandidates e req, planScoreOf [d] ≤ planScoreOf [c']) ∧
        (suggest_recipes e req).suggestions =
          ([c'.1].take req.max_suggestions).filterMap (assemble e (detailsOf [c']))) := by
  have hrun := btRun_plan_one e req h1 h
  have hinv := bestSingleInv_run e req
  rw [← hrun] at hinv
  constructor
  · intro hall
    rcases hinv with ⟨hst, _⟩ | ⟨pre, c', post, heq, hst, hpos, _, _⟩
    · have hp : (btRun e req).best_plan = [] := by rw [hst]
      exact ⟨hp, by simp [suggest_recipes, hp]⟩
    · exfalso
      have hc' : c' ∈ topCandidates e req := by
        rw [heq]
        exact List.mem_append.2 (Or.inr (List.mem_cons_self c' post))
      exact absurd hpos (not_lt.2 (hall c' hc'))
  · intro c0 hc0 hpos0
    rcases hinv with ⟨_, hall⟩ | ⟨pre, c', post, heq, hst, hpos, hmax, _⟩
    · exact absurd hpos0 (not_lt.2 (hall c0 hc0))
    · have hc' : c' ∈ topCandidates e req := by
        rw [heq]
        exact List.mem_append.2 (Or.inr (List.mem_cons_self c' post))
      refine ⟨c', hc', hpos, hmax, ?_⟩
      have hresp : suggest_recipes e req =
          ⟨([c'.1].take req.max_suggestions).filterMap (assemble e (detailsOf [c'])),
            req.plan_size, req.max_missing⟩ := by
        unfold suggest_recipes
        rw [hst]
        rw [if_neg (by simp)]
      rw [hresp]

/-- C3 witness for the amended claim: on the counterexample catalog a maximal
single plan is recipe a1 with positive score, and the suggestion list is exactly
that one record. -/
theorem plan_size_one_characterization_witness :
    (((∀ c ∈ topCandidates cexEngine cexRequest, planScoreOf [c] ≤ 0) →
      (btRun cexEngine cexRequest).best_plan = [] ∧
      (suggest_recipes cexEngine cexRequest).suggestions =
        fallbackSuggestions cexEngine cexRequest) ∧
    (∀ c0 ∈ topCandidates cexEngine cexRequest, 0 < planScoreOf [c0] →
      ∃ c' ∈ topCandidates cexEngine cexRequest, 0 < planScoreOf [c'] ∧
        (∀ d ∈ topCandidates cexEngine cexRequest,
          planScoreOf [d] ≤ planScoreOf [c']) ∧
        (suggest_recipes cexEngine cexRequest).suggestions =
          ([c'.1].take cexRequest.max_suggestions).filterMap
            (assemble cexEngine (detailsOf [c'])))) ∧
    (suggest_recipes cexEngine cexRequest).suggestions.length = 1 :=
  ⟨plan_size_one_characterization cexEngine cexRequest rfl (by decide), by decide⟩

end FlavorGraph
